import Mathlib

/-!
Verification of the interaction-ranking core of `shap/plots.py`.

The embedding models a dense 2-D numpy array as a shape together with an
entry function (`Mat`).  Matrix entries are rationals (idealizing IEEE
doubles by exact arithmetic); the per-window absolute Pearson correlation
is a real number because it divides by square roots of variances, exactly
as `np.corrcoef` does.  Randomness (`np.random.shuffle` of `np.arange(n)`)
is modelled by passing the shuffled array as an explicit parameter `perm`,
constrained where needed to be a permutation of `List.range n`; the
distribution of that permutation is numpy's contract, not this module's.
Fallible numpy operations (fancy indexing with an out-of-bounds index,
`range` with a zero step) are modelled with `Option`, `none` standing for
a raised exception.
-/

/-- A dense 2-D numpy array of floats: a shape `(rows, cols)` plus an entry
function.  Reads outside the shape never occur on successful paths; the
bounds checks that numpy performs on fancy indexing are modelled in
`fancyCol`. -/
structure Mat where
  rows : Nat
  cols : Nat
  entry : Nat → Nat → ℚ

/-- Lines 142-147: `inds`, the sampled row indices.  If there are more than
10000 rows, `np.arange` is shuffled (the shuffled array is the parameter
`perm`) and the first 10000 entries are kept; otherwise `inds` is
`np.arange(X.shape[0])` and no randomness is consumed. -/
def sampleInds (X : Mat) (perm : List Nat) : List Nat :=
  if 10000 < X.rows then perm.take 10000 else List.range X.rows

/-- Fancy indexing `M[inds, j]`: numpy bounds-checks every index and raises
`IndexError` (modelled by `none`) if the column `j` or any row index is out
of range; otherwise it yields the picked column entries in order. -/
def fancyCol (M : Mat) (inds : List Nat) (j : Nat) : Option (List ℚ) :=
  if j < M.cols ∧ ∀ i ∈ inds, i < M.rows then
    some (inds.map fun r => M.entry r j)
  else none

/-- `np.argsort` on a float vector: a permutation of `0, ..., len-1` that
lists positions in nondecreasing order of value.  numpy's quicksort breaks
ties arbitrarily; the model fixes the stable insertion-sort tie-break,
which the ranking heuristic never depends on. -/
def argsortQ (xs : List ℚ) : List Nat :=
  List.insertionSort (fun i j => xs.getD i 0 ≤ xs.getD j 0) (List.range xs.length)

/-- Fancy indexing a vector by a list of positions, `v[p]`. -/
def applyPerm (xs : List ℚ) (p : List Nat) : List ℚ :=
  p.map fun k => xs.getD k 0

/-- The state built by lines 142-153 before the scoring loop runs:
the sampled rows, the sampled target column `x`, its argsort `srt`,
the value-ordered target attributions `shap_ref`, and the bin width
`inc`. -/
structure Ctx where
  inds : List Nat
  x : List ℚ
  srt : List Nat
  shap_ref : List ℚ
  inc : Nat

/-- Lines 142-153 of `approx_interactions`: sampling, the two column
extractions `x = X[inds,index]` and `shap_values[inds,index]` (each a
bounds-checked fancy-indexing step), the argsort of `x`, the reordering
`shap_ref = shap_ref[srt]` and the bin width
`inc = min(int(len(x)/10.0), 50)`. -/
def setup (index : Nat) (shap_values X : Mat) (perm : List Nat) : Option Ctx :=
  match fancyCol X (sampleInds X perm) index with
  | none => none
  | some x =>
    match fancyCol shap_values (sampleInds X perm) index with
    | none => none
    | some s0 =>
      some ⟨sampleInds X perm, x, argsortQ x, applyPerm s0 (argsortQ x),
        min (x.length / 10) 50⟩

/-- Arithmetic mean of a float vector (`np.mean`); empty input never occurs
on the paths that use it. -/
def mean (w : List ℚ) : ℚ := w.sum / w.length

/-- Sum of squared deviations from the mean; `np.std(w)` is the square root
of `svar w / len w` and `np.corrcoef` normalizes by these sums. -/
def svar (w : List ℚ) : ℚ :=
  (Finset.range w.length).sum fun i => (w.getD i 0 - mean w) ^ 2

/-- `np.std`: population standard deviation. -/
noncomputable def npstd (w : List ℚ) : ℝ :=
  Real.sqrt ((svar w / w.length : ℚ) : ℝ)

/-- Sum of products of deviations from the means: the unnormalized
covariance appearing in the numerator of `np.corrcoef(a, b)[0, 1]`. -/
def ccov (a b : List ℚ) : ℚ :=
  (Finset.range a.length).sum fun i => (a.getD i 0 - mean a) * (b.getD i 0 - mean b)

/-- `abs(np.corrcoef(a, b)[0, 1])`: the absolute Pearson correlation,
`|cov| / sqrt(var a * var b)` (the `1/n` factors cancel). -/
noncomputable def absCorrcoef (a b : List ℚ) : ℝ :=
  |((ccov a b : ℚ) : ℝ)| / Real.sqrt ((svar a * svar b : ℚ) : ℝ)

/-- The window `v[s : s+len]` of numpy slicing: truncated at the end of the
vector, never padded. -/
def winSlice (w : List ℚ) (s len : Nat) : List ℚ := (w.drop s).take len

/-- The window start offsets `range(0, len, inc)` for `inc > 0`:
`0, inc, 2*inc, ...` while below `len`. -/
def windowStarts (len inc : Nat) : List Nat :=
  (List.range ((len + inc - 1) / inc)).map (· * inc)

/-- Lines 163-164, the body of one window: if both the window of the
candidate's values and the window of the target's attributions have
positive standard deviation, the window adds the absolute Pearson
correlation of the two windows, otherwise it adds nothing. -/
noncomputable def windowContribution (shap_ref val_other : List ℚ) (s inc : Nat) : ℝ :=
  if 0 < npstd (winSlice val_other s inc) ∧ 0 < npstd (winSlice shap_ref s inc) then
    absCorrcoef (winSlice shap_ref s inc) (winSlice val_other s inc)
  else 0

/-- Line 156: `val_other = X[inds, i][srt]`, the candidate column sampled
and reordered by the target's value order.  Row and column bounds were
already validated by `setup` for the same `inds`, and the loop only visits
`i < X.cols`. -/
def valOther (ctx : Ctx) (X : Mat) (i : Nat) : List ℚ :=
  applyPerm (ctx.inds.map fun r => X.entry r i) ctx.srt

/-- Lines 158-165, the score of one candidate feature `i`: the target
itself and near-zero columns (sum of absolute values below `1e-8`) score
`0` without any window work; otherwise the scores of the windows
`range(0, len(x), inc)` are accumulated.  When `inc = 0`, Python's
`range(0, len(x), 0)` raises `ValueError`, modelled by `none`. -/
noncomputable def scoreFeature (index : Nat) (ctx : Ctx) (X : Mat) (i : Nat) : Option ℝ :=
  if i = index ∨ ((valOther ctx X i).map fun a => |a|).sum < 1e-8 then some 0
  else if ctx.inc = 0 then none
  else
    some ((windowStarts ctx.x.length ctx.inc).map
      (fun s => windowContribution ctx.shap_ref (valOther ctx X i) s ctx.inc)).sum

/-- The loop of lines 154-165: the per-feature scores are appended in
order; the first raised exception aborts the call. -/
def mapOption (f : Nat → Option ℝ) : List Nat → Option (List ℝ)
  | [] => some []
  | i :: is =>
    match f i, mapOption f is with
    | some v, some vs => some (v :: vs)
    | _, _ => none

/-- The sort keys of line 167: `-np.abs(interactions)`. -/
noncomputable def negAbsKeys (scores : List ℝ) : List ℝ :=
  scores.map fun v => -|v|

/-- Line 167: `np.argsort(-np.abs(interactions))` — positions ordered by
nondecreasing negated absolute score, i.e. by nonincreasing absolute
score. -/
noncomputable def argsortNegAbs (scores : List ℝ) : List Nat :=
  List.insertionSort
    (fun i j => (negAbsKeys scores).getD i 0 ≤ (negAbsKeys scores).getD j 0)
    (List.range scores.length)

/-- `approx_interactions(index, shap_values, X)` (lines 135-167), with the
shuffled `np.arange(X.shape[0])` passed in as `perm`.  `none` models a
raised exception (`IndexError` from fancy indexing or `ValueError` from a
zero `range` step). -/
noncomputable def approx_interactions (index : Nat) (shap_values X : Mat)
    (perm : List Nat) : Option (List Nat) :=
  match setup index shap_values X perm with
  | none => none
  | some ctx =>
    match mapOption (scoreFeature index ctx X) (List.range X.cols) with
    | none => none
    | some interactions => some (argsortNegAbs interactions)

/-- The number of windows of a candidate feature that pass the positive
standard deviation test on both series — the windows that actually add a
correlation to the score. -/
noncomputable def scoredWindowCount (shap_ref val_other : List ℚ) (len inc : Nat) : Nat :=
  (windowStarts len inc).countP fun s =>
    decide (0 < npstd (winSlice val_other s inc) ∧ 0 < npstd (winSlice shap_ref s inc))

/-- The score of feature `i` in a run of `approx_interactions`, read off
the same pipeline (`0` on paths that raise before producing it). -/
noncomputable def scoreVal (index : Nat) (shap_values X : Mat) (perm : List Nat)
    (i : Nat) : ℝ :=
  ((setup index shap_values X perm).bind fun ctx => scoreFeature index ctx X i).getD 0

/-- A Python runtime value at the call sites of interest: either an integer
(a feature index) or a 2-D float array. -/
inductive PyVal where
  | int : Nat → PyVal
  | mat : Mat → PyVal

/-- The attribute access `v.shape[0]`: an integer has no `shape` attribute,
so `AttributeError` is raised (modelled by `none`). -/
def pyShape0 : PyVal → Option Nat
  | PyVal.mat m => some m.rows
  | PyVal.int _ => none

/-- `approx_interactions` as called dynamically, with each parameter an
arbitrary Python value.  The first executed statement evaluates
`X.shape[0]` (AttributeError when `X` is an integer).  When `X` is an
array, `shap_values[inds, index]` requires `shap_values` subscriptable
(TypeError on an integer) and `X[inds, index]` requires an integer column
index (IndexError when a float array is used as an index).  With all three
parameters of the intended runtime type this is exactly
`approx_interactions`. -/
noncomputable def approx_interactions_py (index shap_values X : PyVal)
    (perm : List Nat) : Option (List Nat) :=
  match pyShape0 X with
  | none => none
  | some _ =>
    match index, shap_values, X with
    | PyVal.int i, PyVal.mat S, PyVal.mat Xm => approx_interactions i S Xm perm
    | _, _, _ => none

/-- Line 89, `dependence_plot` with `interaction_index == "auto"`:
`approx_interactions(ind, shap_values, features)[0]`. -/
noncomputable def dependence_plot_auto (ind : Nat) (shap_values features : Mat)
    (perm : List Nat) : Option Nat :=
  (approx_interactions_py (PyVal.int ind) (PyVal.mat shap_values) (PyVal.mat features)
    perm).map fun l => l.headI

/-- Line 462, `interaction_plot` with `interaction_index == None`:
`approx_interactions(X, shap_value_matrix, ind)[0]` — note the positional
arguments: the feature matrix is passed where the signature expects the
integer index, and the integer `ind` where it expects the matrix `X`. -/
noncomputable def interaction_plot_auto (ind : Nat) (X shap_value_matrix : Mat)
    (perm : List Nat) : Option Nat :=
  (approx_interactions_py (PyVal.mat X) (PyVal.mat shap_value_matrix) (PyVal.int ind)
    perm).map fun l => l.headI

/-- Modelled from the source module's global namespace: `plots.py` defines
no function named `interactions` (the identifier occurs only as a local
variable inside `approx_interactions`), so resolving that name at line 403
yields nothing and the call raises `NameError`. -/
def moduleGlobalInteractions :
    Option (PyVal → PyVal → PyVal → List Nat → Option (List Nat)) :=
  none

/-- Line 403, `joint_plot` with `other_ind == None`:
`interactions(X, shap_value_matrix, ind)[other_auto_ind]`, where the name
`interactions` is looked up among the module globals. -/
def joint_plot_auto (ind : Nat) (X shap_value_matrix : Mat) (other_auto_ind : Nat)
    (perm : List Nat) : Option Nat :=
  match moduleGlobalInteractions with
  | none => none
  | some f =>
    (f (PyVal.mat X) (PyVal.mat shap_value_matrix) (PyVal.int ind) perm).bind
      fun l => l.get? other_auto_ind

/-- A 20-row, 2-column feature matrix whose two columns both equal the row
index; used to exercise a run with a strictly positive interaction
score. -/
def demoX : Mat := ⟨20, 2, fun r _ => (r : ℚ)⟩

/-- A 20-row, 2-column attribution matrix equal to `demoX`. -/
def demoS : Mat := ⟨20, 2, fun r _ => (r : ℚ)⟩

/-- A 7-row matrix used to instantiate the sampling theorem. -/
def wit5X : Mat := ⟨7, 1, fun _ _ => 0⟩

/-- A 1-row matrix whose column 0 is identically zero (degenerate) and
whose column 1 is nonzero. -/
def wit7X : Mat := ⟨1, 2, fun _ c => if c = 0 then 0 else 5⟩

/-- A context with bin width 0, as produced by a 1-row input. -/
def wit7Ctx : Ctx := ⟨[0], [5], [0], [5], 0⟩

/-- A valid 1-row, 2-column input (all entries 1); with one sampled row the
bin width is `min(int(1/10), 50) = 0`. -/
def oneByTwoOnes : Mat := ⟨1, 2, fun _ _ => 1⟩

/-- The context `setup` builds for `oneByTwoOnes` with target 0. -/
def cx1Ctx : Ctx := ⟨[0], [1], [0], [1], 0⟩

/-- A valid 2-row, 2-column input with nonzero, pairwise distinct entries. -/
def twoByTwo : Mat :=
  ⟨2, 2, fun r c => if r = 0 then (if c = 0 then 1 else 2) else (if c = 0 then 3 else 4)⟩

/-- The context `setup` builds for `twoByTwo` with target 0. -/
def cx2Ctx : Ctx := ⟨[0, 1], [1, 3], [0, 1], [1, 3], 0⟩

/-- A 10-row, 2-column all-zero matrix. -/
def tenByTwoZeros : Mat := ⟨10, 2, fun _ _ => 0⟩

/-- A 12-row, 2-column all-zero matrix: two more rows than
`tenByTwoZeros`, so the pair is shape-mismatched. -/
def twelveByTwoZeros : Mat := ⟨12, 2, fun _ _ => 0⟩

/-- The context `setup` builds for the mismatched pair
`(twelveByTwoZeros, tenByTwoZeros)` with target 0. -/
def cx3Ctx : Ctx :=
  ⟨List.range 10, List.replicate 10 0, List.range 10, List.replicate 10 0, 1⟩

/-- An 11-row, 2-column matrix of zeros, enough rows for a nonzero bin
width. -/
def elevenByTwo : Mat := ⟨11, 2, fun _ _ => 0⟩

/-- The sampled target column of the demo input: `0, 1, ..., 19`. -/
def demoQ : List ℚ := (List.range 20).map fun r : Nat => (r : ℚ)

/-- The context `setup` builds for the demo input with target 0. -/
def demoCtx : Ctx := ⟨List.range 20, demoQ, List.range 20, demoQ, 2⟩

/-! ### Variance, standard deviation and correlation facts -/

lemma svar_nonneg (w : List ℚ) : 0 ≤ svar w :=
  Finset.sum_nonneg fun _ _ => sq_nonneg _

lemma mean_of_const (a : ℚ) (l : List ℚ) (h : ∀ x ∈ a :: l, x = a) :
    mean (a :: l) = a := by
  have hsum : (a :: l).sum = (a :: l).length • a := List.sum_eq_card_nsmul _ _ h
  unfold mean
  rw [hsum, nsmul_eq_mul, mul_comm, mul_div_assoc, div_self, mul_one]
  exact Nat.cast_ne_zero.mpr (Nat.succ_ne_zero l.length)

lemma svar_eq_zero_iff (w : List ℚ) : svar w = 0 ↔ ∀ a ∈ w, ∀ b ∈ w, a = b := by
  constructor
  · intro h a ha b hb
    have hterm := (Finset.sum_eq_zero_iff_of_nonneg
      (fun i _ => sq_nonneg (w.getD i 0 - mean w))).mp h
    have hmem : ∀ c ∈ w, c = mean w := by
      intro c hc
      obtain ⟨i, hi, rfl⟩ := List.mem_iff_getElem.mp hc
      have h0 := hterm i (Finset.mem_range.mpr hi)
      have := pow_eq_zero_iff (n := 2) (by norm_num) |>.mp h0
      have hgd : w.getD i 0 = w[i] := List.getD_eq_getElem w 0 hi
      rw [← hgd]
      linarith [this]
    rw [hmem a ha, hmem b hb]
  · intro h
    cases w with
    | nil => simp [svar]
    | cons a l =>
      have hall : ∀ x ∈ a :: l, x = a := fun x hx =>
        h x hx a (List.mem_cons_self a l)
      apply Finset.sum_eq_zero
      intro i hi
      have hi' := Finset.mem_range.mp hi
      have hgd : (a :: l).getD i 0 = (a :: l)[i] := List.getD_eq_getElem _ 0 hi'
      have helem : (a :: l)[i] = a := hall _ (List.getElem_mem hi')
      rw [hgd, helem, mean_of_const a l hall, sub_self]
      norm_num

lemma npstd_pos_iff (w : List ℚ) : 0 < npstd w ↔ 0 < svar w := by
  unfold npstd
  rw [Real.sqrt_pos, Rat.cast_pos]
  rcases Nat.eq_zero_or_pos w.length with h0 | hpos
  · have hz : svar w = 0 := by simp [svar, h0]
    simp [hz, h0]
  · constructor
    · intro h
      rcases lt_or_eq_of_le (svar_nonneg w) with hlt | heq
      · exact hlt
      · rw [← heq] at h
        simp at h
    · intro h
      exact div_pos h (by exact_mod_cast hpos)

lemma npstd_eq_zero_iff (w : List ℚ) : npstd w = 0 ↔ ∀ a ∈ w, ∀ b ∈ w, a = b := by
  rw [← svar_eq_zero_iff]
  constructor
  · intro h
    by_contra hne
    have hpos : 0 < svar w := lt_of_le_of_ne (svar_nonneg w) (Ne.symm hne)
    have h2 := (npstd_pos_iff w).mpr hpos
    rw [h] at h2
    exact lt_irrefl 0 h2
  · intro h
    unfold npstd
    rw [h]
    simp

lemma ccov_sq_le (a b : List ℚ) (hlen : a.length = b.length) :
    ccov a b ^ 2 ≤ svar a * svar b := by
  have h := Finset.sum_mul_sq_le_sq_mul_sq (Finset.range a.length)
    (fun i => a.getD i 0 - mean a) (fun i => b.getD i 0 - mean b)
  unfold ccov svar
  rw [← hlen]
  exact h

lemma absCorrcoef_nonneg (a b : List ℚ) : 0 ≤ absCorrcoef a b :=
  div_nonneg (abs_nonneg _) (Real.sqrt_nonneg _)

lemma absCorrcoef_le_one (a b : List ℚ) (hlen : a.length = b.length) :
    absCorrcoef a b ≤ 1 := by
  unfold absCorrcoef
  have h2 : ((ccov a b : ℚ) : ℝ) ^ 2 ≤ ((svar a * svar b : ℚ) : ℝ) := by
    exact_mod_cast ccov_sq_le a b hlen
  have habs : |((ccov a b : ℚ) : ℝ)| ≤ Real.sqrt ((svar a * svar b : ℚ) : ℝ) := by
    rw [← Real.sqrt_sq_eq_abs]
    exact Real.sqrt_le_sqrt h2
  rcases eq_or_lt_of_le (Real.sqrt_nonneg ((svar a * svar b : ℚ) : ℝ)) with hz | hpos
  · rw [← hz, div_zero]
    norm_num
  · rw [div_le_one hpos]
    exact habs

lemma winSlice_length (w : List ℚ) (s len : Nat) :
    (winSlice w s len).length = min len (w.length - s) := by
  simp [winSlice]

lemma windowContribution_nonneg (sr vo : List ℚ) (s inc : Nat) :
    0 ≤ windowContribution sr vo s inc := by
  unfold windowContribution
  split_ifs
  · exact absCorrcoef_nonneg _ _
  · exact le_refl 0

lemma windowContribution_le_one (sr vo : List ℚ) (s inc : Nat)
    (hlen : sr.length = vo.length) : windowContribution sr vo s inc ≤ 1 := by
  unfold windowContribution
  split_ifs
  · exact absCorrcoef_le_one _ _ (by simp [winSlice_length, hlen])
  · norm_num

lemma windowContribution_eq_zero_of_const (sr vo : List ℚ) (s inc : Nat)
    (h : (∀ a ∈ winSlice vo s inc, ∀ b ∈ winSlice vo s inc, a = b) ∨
         (∀ a ∈ winSlice sr s inc, ∀ b ∈ winSlice sr s inc, a = b)) :
    windowContribution sr vo s inc = 0 := by
  unfold windowContribution
  rw [if_neg]
  rintro ⟨h1, h2⟩
  rcases h with hc | hc
  · rw [(npstd_eq_zero_iff _).mpr hc] at h1
    exact lt_irrefl 0 h1
  · rw [(npstd_eq_zero_iff _).mpr hc] at h2
    exact lt_irrefl 0 h2

/-! ### Sampling facts -/

lemma sampleInds_small (X : Mat) (perm : List Nat) (h : X.rows ≤ 10000) :
    sampleInds X perm = List.range X.rows := by
  unfold sampleInds
  rw [if_neg (not_lt.mpr h)]

lemma sampleInds_big (X : Mat) (perm : List Nat) (h : 10000 < X.rows)
    (hp : perm.Perm (List.range X.rows)) :
    (sampleInds X perm).length = 10000 ∧ (sampleInds X perm).Nodup ∧
      ∀ i ∈ sampleInds X perm, i < X.rows := by
  have hind : sampleInds X perm = perm.take 10000 := by
    unfold sampleInds
    rw [if_pos h]
  have hplen : perm.length = X.rows := by
    simpa using hp.length_eq
  refine ⟨?_, ?_, ?_⟩
  · rw [hind, List.length_take, hplen]
    exact Nat.min_eq_left (le_of_lt h)
  · rw [hind]
    exact List.Nodup.sublist (List.take_sublist _ _)
      (hp.nodup_iff.mpr (List.nodup_range _))
  · intro i hi
    rw [hind] at hi
    have hmem : i ∈ perm := (List.take_sublist _ _).subset hi
    exact List.mem_range.mp (hp.mem_iff.mp hmem)

lemma sampleInds_bounds (X : Mat) (perm : List Nat)
    (hgood : X.rows ≤ 10000 ∨ perm.Perm (List.range X.rows)) :
    ∀ i ∈ sampleInds X perm, i < X.rows := by
  rcases le_or_lt X.rows 10000 with hs | hb
  · rw [sampleInds_small X perm hs]
    intro i hi
    exact List.mem_range.mp hi
  · rcases hgood with hsmall | hp
    · exact absurd hsmall (not_le.mpr hb)
    · exact (sampleInds_big X perm hb hp).2.2

lemma sampleInds_len_ge_ten (X : Mat) (perm : List Nat) (h10 : 10 ≤ X.rows)
    (hgood : X.rows ≤ 10000 ∨ perm.Perm (List.range X.rows)) :
    10 ≤ (sampleInds X perm).length := by
  rcases le_or_lt X.rows 10000 with hs | hb
  · rw [sampleInds_small X perm hs, List.length_range]
    exact h10
  · rcases hgood with hsmall | hp
    · exact absurd hsmall (not_le.mpr hb)
    · rw [(sampleInds_big X perm hb hp).1]
      norm_num

/-! ### The scoring loop -/

lemma mapOption_spec (f : Nat → Option ℝ) (l : List Nat) (vs : List ℝ)
    (h : mapOption f l = some vs) :
    vs.length = l.length ∧ ∀ k, k < l.length → f (l.getD k 0) = some (vs.getD k 0) := by
  induction l generalizing vs with
  | nil =>
    unfold mapOption at h
    obtain rfl : ([] : List ℝ) = vs := Option.some.inj h
    exact ⟨rfl, fun k hk => absurd hk (Nat.not_lt_zero k)⟩
  | cons i is ih =>
    unfold mapOption at h
    cases hfi : f i with
    | none => rw [hfi] at h; exact Option.noConfusion h
    | some v =>
      rw [hfi] at h
      cases hrest : mapOption f is with
      | none => rw [hrest] at h; exact Option.noConfusion h
      | some ws =>
        rw [hrest] at h
        obtain rfl : v :: ws = vs := Option.some.inj h
        obtain ⟨hlen, hk⟩ := ih ws hrest
        refine ⟨by simp [hlen], ?_⟩
        intro k hk'
        cases k with
        | zero => simpa using hfi
        | succ k' =>
          simp only [List.getD_cons_succ]
          exact hk k' (by simpa using hk')

lemma mapOption_isSome (f : Nat → Option ℝ) (l : List Nat)
    (h : ∀ i ∈ l, (f i).isSome) : ∃ vs, mapOption f l = some vs := by
  induction l with
  | nil => exact ⟨[], rfl⟩
  | cons i is ih =>
    obtain ⟨v, hv⟩ := Option.isSome_iff_exists.mp (h i (List.mem_cons_self i is))
    obtain ⟨ws, hws⟩ := ih fun j hj => h j (List.mem_cons_of_mem i hj)
    refine ⟨v :: ws, ?_⟩
    unfold mapOption
    rw [hv, hws]

lemma setup_eq_some (index : Nat) (S X : Mat) (perm : List Nat)
    (hXc : index < X.cols) (hSc : index < S.cols)
    (hXr : ∀ i ∈ sampleInds X perm, i < X.rows)
    (hSr : ∀ i ∈ sampleInds X perm, i < S.rows) :
    ∃ ctx, setup index S X perm = some ctx ∧
      ctx.inds = sampleInds X perm ∧
      ctx.x.length = (sampleInds X perm).length ∧
      ctx.srt = argsortQ ctx.x ∧
      ctx.shap_ref.length = ctx.srt.length ∧
      ctx.inc = min (ctx.x.length / 10) 50 := by
  unfold setup fancyCol
  rw [if_pos ⟨hXc, hXr⟩, if_pos ⟨hSc, hSr⟩]
  exact ⟨_, rfl, rfl, by simp, rfl, by simp [applyPerm], rfl⟩

lemma scoreFeature_target (index : Nat) (ctx : Ctx) (X : Mat) :
    scoreFeature index ctx X index = some 0 := by
  unfold scoreFeature
  rw [if_pos (Or.inl rfl)]

lemma scoreFeature_shortcircuit (index : Nat) (ctx : Ctx) (X : Mat) (i : Nat)
    (hd : ((valOther ctx X i).map fun a => |a|).sum < 1e-8) :
    scoreFeature index ctx X i = some 0 := by
  unfold scoreFeature
  rw [if_pos (Or.inr hd)]

lemma scoreFeature_isSome (index : Nat) (ctx : Ctx) (X : Mat) (i : Nat)
    (hinc : ctx.inc ≠ 0) : (scoreFeature index ctx X i).isSome := by
  unfold scoreFeature
  split_ifs with h1
  · rfl
  · rfl

lemma scoreFeature_nonneg (index : Nat) (ctx : Ctx) (X : Mat) (i : Nat) (v : ℝ)
    (h : scoreFeature index ctx X i = some v) : 0 ≤ v := by
  unfold scoreFeature at h
  split_ifs at h with h1
  · obtain rfl : (0:ℝ) = v := Option.some.inj h
    exact le_refl 0
  · obtain rfl := Option.some.inj h
    apply List.sum_nonneg
    intro x hx
    obtain ⟨s, _, rfl⟩ := List.mem_map.mp hx
    exact windowContribution_nonneg _ _ _ _

lemma sum_ite_eq_countP (l : List Nat) (p : Nat → Prop) [DecidablePred p] :
    (l.map fun s => if p s then (1:ℝ) else 0).sum =
      ((l.countP fun s => decide (p s) : Nat) : ℝ) := by
  induction l with
  | nil => simp
  | cons a l ih =>
    by_cases hp : p a
    · simp only [List.map_cons, List.sum_cons, if_pos hp, List.countP_cons, ih,
        decide_eq_true_eq, if_pos hp]
      push_cast
      ring
    · simp only [List.map_cons, List.sum_cons, if_neg hp, List.countP_cons, ih,
        decide_eq_true_eq, if_neg hp]
      push_cast
      ring

lemma scoreFeature_le_count (index : Nat) (ctx : Ctx) (X : Mat) (i : Nat) (v : ℝ)
    (hlen : ctx.shap_ref.length = ctx.srt.length)
    (h : scoreFeature index ctx X i = some v) :
    v ≤ (scoredWindowCount ctx.shap_ref (valOther ctx X i) ctx.x.length ctx.inc : ℝ) := by
  unfold scoreFeature at h
  split_ifs at h with h1
  · obtain rfl : (0:ℝ) = v := Option.some.inj h
    exact Nat.cast_nonneg _
  · obtain rfl := Option.some.inj h
    unfold scoredWindowCount
    rw [← sum_ite_eq_countP]
    apply List.sum_le_sum
    intro s _
    by_cases hg : 0 < npstd (winSlice (valOther ctx X i) s ctx.inc) ∧
        0 < npstd (winSlice ctx.shap_ref s ctx.inc)
    · rw [if_pos hg]
      have hvlen : (valOther ctx X i).length = ctx.srt.length := by
        simp [valOther, applyPerm]
      exact windowContribution_le_one _ _ _ _ (by rw [hlen, ← hvlen])
    · rw [if_neg hg]
      unfold windowContribution
      rw [if_neg hg]

/-! ### The final ranking -/

lemma argsortNegAbs_perm (scores : List ℝ) :
    (argsortNegAbs scores).Perm (List.range scores.length) :=
  List.perm_insertionSort _ _

lemma argsortNegAbs_sorted (scores : List ℝ) :
    List.Sorted (fun i j => (negAbsKeys scores).getD i 0 ≤ (negAbsKeys scores).getD j 0)
      (argsortNegAbs scores) := by
  letI : IsTotal Nat
      (fun i j => (negAbsKeys scores).getD i 0 ≤ (negAbsKeys scores).getD j 0) :=
    ⟨fun a b => le_total _ _⟩
  letI : IsTrans Nat
      (fun i j => (negAbsKeys scores).getD i 0 ≤ (negAbsKeys scores).getD j 0) :=
    ⟨fun a b c hab hbc => le_trans hab hbc⟩
  exact List.sorted_insertionSort _ _

lemma negAbsKeys_getD (scores : List ℝ) (i : Nat) (h : i < scores.length) :
    (negAbsKeys scores).getD i 0 = -|scores.getD i 0| := by
  unfold negAbsKeys
  rw [List.getD_eq_getElem _ _ (by simpa using h), List.getElem_map,
    List.getD_eq_getElem _ _ h]

lemma range_getD (n k : Nat) (h : k < n) : (List.range n).getD k 0 = k := by
  rw [List.getD_eq_getElem _ _ (by simpa using h), List.getElem_range]

lemma approx_interactions_eq (index : Nat) (S X : Mat) (perm : List Nat) :
    approx_interactions index S X perm = (setup index S X perm).bind fun ctx =>
      (mapOption (scoreFeature index ctx X) (List.range X.cols)).map argsortNegAbs := by
  unfold approx_interactions
  cases hs : setup index S X perm with
  | none => rfl
  | some ctx =>
    dsimp only
    simp only [Option.some_bind]
    cases hm : mapOption (scoreFeature index ctx X) (List.range X.cols) with
    | none => rfl
    | some scores => rfl

/-- The common success path of `approx_interactions`: under matching shapes,
a valid target index, at least 10 rows and a genuine shuffle, the setup
succeeds, every feature scores, the result is the argsort of the score
list, and the scores can be read off positionally. -/
lemma approx_run_spec (index : Nat) (S X : Mat) (perm : List Nat)
    (hrows : S.rows = X.rows) (hcols : S.cols = X.cols) (hidx : index < X.cols)
    (h10 : 10 ≤ X.rows)
    (hgood : X.rows ≤ 10000 ∨ perm.Perm (List.range X.rows)) :
    ∃ ctx scores, setup index S X perm = some ctx ∧
      mapOption (scoreFeature index ctx X) (List.range X.cols) = some scores ∧
      scores.length = X.cols ∧
      approx_interactions index S X perm = some (argsortNegAbs scores) ∧
      (∀ k, k < X.cols → scoreFeature index ctx X k = some (scores.getD k 0)) ∧
      ctx.shap_ref.length = ctx.srt.length ∧ 1 ≤ ctx.inc := by
  have hXr := sampleInds_bounds X perm hgood
  have hSr : ∀ i ∈ sampleInds X perm, i < S.rows := by
    intro i hi
    rw [hrows]
    exact hXr i hi
  obtain ⟨ctx, hsetup, hinds, hxlen, hsrt, hsh, hinc⟩ :=
    setup_eq_some index S X perm hidx (by rw [hcols]; exact hidx) hXr hSr
  have hL : 10 ≤ ctx.x.length := by
    rw [hxlen]
    exact sampleInds_len_ge_ten X perm h10 hgood
  have hinc1 : 1 ≤ ctx.inc := by
    rw [hinc]
    exact le_min ((Nat.one_le_div_iff (by norm_num)).mpr hL) (by norm_num)
  obtain ⟨scores, hscores⟩ := mapOption_isSome _ _
    (fun i _ => scoreFeature_isSome index ctx X i (by omega))
  obtain ⟨hslen, hsget⟩ := mapOption_spec _ _ _ hscores
  refine ⟨ctx, scores, hsetup, hscores, by simpa using hslen, ?_, ?_, hsh, hinc1⟩
  · simp only [approx_interactions_eq, hsetup, Option.some_bind, hscores,
      Option.map_some']
  · intro k hk
    have h := hsget k (by simpa using hk)
    rwa [range_getD _ _ hk] at h

/-! ### Claim theorems -/

/-- C5: when the feature matrix has at most 10000 rows, the sampled index
list is exactly `np.arange(rows)` — every row used, for every value of the
shuffle parameter, so no randomness is consumed; when it has more than
10000 rows and the shuffle parameter is a genuine permutation of the
arange, exactly 10000 pairwise-distinct valid row indices are used.  The
uniformity of the shuffle itself is `np.random.shuffle`'s contract. -/
theorem sampling_threshold (X : Mat) (perm : List Nat)
    (hgood : X.rows ≤ 10000 ∨ perm.Perm (List.range X.rows)) :
    (X.rows ≤ 10000 → sampleInds X perm = List.range X.rows) ∧
    (10000 < X.rows → (sampleInds X perm).length = 10000 ∧
      (sampleInds X perm).Nodup ∧ ∀ i ∈ sampleInds X perm, i < X.rows) := by
  constructor
  · intro hs
    exact sampleInds_small X perm hs
  · intro hb
    rcases hgood with hsmall | hp
    · exact absurd hsmall (not_le.mpr hb)
    · exact sampleInds_big X perm hb hp

theorem sampling_threshold_witness :
    (wit5X.rows ≤ 10000 ∨ ([] : List Nat).Perm (List.range wit5X.rows)) ∧
      (wit5X.rows ≤ 10000 → sampleInds wit5X [] = List.range wit5X.rows) :=
  ⟨Or.inl (by decide),
    (sampling_threshold wit5X [] (Or.inl (by decide))).1⟩

/-- C7: a candidate feature other than the target whose sampled absolute
values sum below `1e-8` scores exactly `0`, through the short-circuit of
line 158 — no window statistic is consulted, so this holds for every
context, in particular one whose bin width `inc` is `0` (where entering
the window loop would raise). -/
theorem degenerate_column_zero (index : Nat) (ctx : Ctx) (X : Mat) (i : Nat)
    (_hi : i ≠ index)
    (hd : ((valOther ctx X i).map fun a => |a|).sum < 1e-8) :
    scoreFeature index ctx X i = some 0 :=
  scoreFeature_shortcircuit index ctx X i hd

theorem degenerate_column_zero_witness :
    (0 ≠ 1) ∧ (((valOther wit7Ctx wit7X 0).map fun a => |a|).sum < 1e-8) ∧
      scoreFeature 1 wit7Ctx wit7X 0 = some 0 :=
  ⟨by decide, by norm_num [valOther, applyPerm, wit7Ctx, wit7X],
    degenerate_column_zero 1 wit7Ctx wit7X 0 (by decide)
      (by norm_num [valOther, applyPerm, wit7Ctx, wit7X])⟩

/-- C9: a computed per-feature score is nonnegative and bounded above by
the number of scored windows — the windows in which both series passed the
positive-standard-deviation test — because each such window contributes an
absolute Pearson correlation lying in [0, 1]. -/
theorem score_nonneg_le_scored_windows (index : Nat) (ctx : Ctx) (X : Mat)
    (i : Nat) (v : ℝ) (hlen : ctx.shap_ref.length = ctx.srt.length)
    (h : scoreFeature index ctx X i = some v) :
    0 ≤ v ∧ v ≤ (scoredWindowCount ctx.shap_ref (valOther ctx X i)
      ctx.x.length ctx.inc : ℝ) :=
  ⟨scoreFeature_nonneg index ctx X i v h,
    scoreFeature_le_count index ctx X i v hlen h⟩

lemma scoreVal_eq (index : Nat) (S X : Mat) (perm : List Nat) (ctx : Ctx)
    (hsetup : setup index S X perm = some ctx) (i : Nat) :
    scoreVal index S X perm i = (scoreFeature index ctx X i).getD 0 := by
  unfold scoreVal
  rw [hsetup]
  rfl

/-- C1 (amended): with matching shapes, a valid target index, a genuine
shuffle parameter and at least 10 rows (so that the bin width is nonzero
and the window loop cannot raise), `approx_interactions` returns a
permutation of all `F` column indices — the target's own index included —
ordered by nonincreasing interaction score.  The counterexample
`ranking_small_input_cx` shows the claim fails as stated when the row
count is below 10. -/
theorem ranking_is_sorted_permutation (index : Nat) (S X : Mat) (perm : List Nat)
    (hrows : S.rows = X.rows) (hcols : S.cols = X.cols) (hidx : index < X.cols)
    (h10 : 10 ≤ X.rows)
    (hgood : X.rows ≤ 10000 ∨ perm.Perm (List.range X.rows)) :
    ∃ r, approx_interactions index S X perm = some r ∧
      r.Perm (List.range X.cols) ∧
      List.Pairwise
        (fun i j => scoreVal index S X perm j ≤ scoreVal index S X perm i) r := by
  obtain ⟨ctx, scores, hsetup, hscores, hslen, happrox, hsget, hsh, hinc⟩ :=
    approx_run_spec index S X perm hrows hcols hidx h10 hgood
  have hperm0 := argsortNegAbs_perm scores
  refine ⟨argsortNegAbs scores, happrox, by rwa [hslen] at hperm0, ?_⟩
  have hsort := argsortNegAbs_sorted scores
  rw [List.Sorted, List.pairwise_iff_getElem] at hsort
  rw [List.pairwise_iff_getElem]
  intro a b ha hb hab
  have hmem1 : (argsortNegAbs scores)[a] ∈ argsortNegAbs scores := List.getElem_mem ha
  have hmem2 : (argsortNegAbs scores)[b] ∈ argsortNegAbs scores := List.getElem_mem hb
  have hi : (argsortNegAbs scores)[a] < scores.length :=
    List.mem_range.mp (hperm0.subset hmem1)
  have hj : (argsortNegAbs scores)[b] < scores.length :=
    List.mem_range.mp (hperm0.subset hmem2)
  have hkey := hsort a b ha hb hab
  rw [negAbsKeys_getD _ _ hi, negAbsKeys_getD _ _ hj, neg_le_neg_iff] at hkey
  have hia := hsget _ (by rwa [hslen] at hi)
  have hjb := hsget _ (by rwa [hslen] at hj)
  have hna := scoreFeature_nonneg _ _ _ _ _ hia
  have hnb := scoreFeature_nonneg _ _ _ _ _ hjb
  have hsa : scoreVal index S X perm (argsortNegAbs scores)[a] =
      scores.getD (argsortNegAbs scores)[a] 0 := by
    rw [scoreVal_eq index S X perm ctx hsetup, hia]
    rfl
  have hsb : scoreVal index S X perm (argsortNegAbs scores)[b] =
      scores.getD (argsortNegAbs scores)[b] 0 := by
    rw [scoreVal_eq index S X perm ctx hsetup, hjb]
    rfl
  rw [hsa, hsb]
  calc scores.getD (argsortNegAbs scores)[b] 0
      ≤ |scores.getD (argsortNegAbs scores)[b] 0| := le_abs_self _
    _ ≤ |scores.getD (argsortNegAbs scores)[a] 0| := hkey
    _ = scores.getD (argsortNegAbs scores)[a] 0 := abs_of_nonneg hna

theorem ranking_is_sorted_permutation_witness :
    tenByTwoZeros.rows = tenByTwoZeros.rows ∧
    tenByTwoZeros.cols = tenByTwoZeros.cols ∧
    0 < tenByTwoZeros.cols ∧ 10 ≤ tenByTwoZeros.rows ∧
    (tenByTwoZeros.rows ≤ 10000 ∨ ([] : List Nat).Perm (List.range tenByTwoZeros.rows)) ∧
    ∃ r, approx_interactions 0 tenByTwoZeros tenByTwoZeros [] = some r ∧
      r.Perm (List.range tenByTwoZeros.cols) ∧
      List.Pairwise (fun i j => scoreVal 0 tenByTwoZeros tenByTwoZeros [] j ≤
        scoreVal 0 tenByTwoZeros tenByTwoZeros [] i) r :=
  ⟨rfl, rfl, by decide, by decide, Or.inl (by decide),
    ranking_is_sorted_permutation 0 tenByTwoZeros tenByTwoZeros [] rfl rfl
      (by decide) (by decide) (Or.inl (by decide))⟩

/-- C1 counterexample: `oneByTwoOnes` is a valid input — the two matrices
share the shape 1 × 2 and the target index 0 is in range — yet the call
returns nothing (it raises `ValueError`, because the sampled row count 1
makes `inc = 0` while column 1 is not degenerate), so the original claim's
unconditional "returns a permutation" is false. -/
theorem ranking_small_input_cx :
    oneByTwoOnes.rows = oneByTwoOnes.rows ∧ oneByTwoOnes.cols = oneByTwoOnes.cols ∧
    0 < oneByTwoOnes.cols ∧
    approx_interactions 0 oneByTwoOnes oneByTwoOnes [] = none := by
  refine ⟨rfl, rfl, by decide, ?_⟩
  have hsetup : setup 0 oneByTwoOnes oneByTwoOnes [] = some cx1Ctx := rfl
  have hf0 : scoreFeature 0 cx1Ctx oneByTwoOnes 0 = some 0 := rfl
  have hf1 : scoreFeature 0 cx1Ctx oneByTwoOnes 1 = none := by
    have h1 : ¬((1:Nat) = 0 ∨
        ((valOther cx1Ctx oneByTwoOnes 1).map fun a => |a|).sum < 1e-8) := by
      push_neg
      refine ⟨by decide, ?_⟩
      norm_num [valOther, applyPerm, cx1Ctx, oneByTwoOnes]
    unfold scoreFeature
    rw [if_neg h1, if_pos (show cx1Ctx.inc = 0 from rfl)]
  have hmap : mapOption (scoreFeature 0 cx1Ctx oneByTwoOnes)
      (List.range oneByTwoOnes.cols) = none := by
    have hr : List.range oneByTwoOnes.cols = [0, 1] := rfl
    rw [hr]
    simp only [mapOption, hf0, hf1]
  rw [approx_interactions_eq, hsetup]
  simp only [Option.some_bind]
  rw [hmap]
  rfl

/-- C2 (amended): with matching shapes, a valid target index and a genuine
shuffle, the call never raises provided the row count is at least 10 (so
that the bin width `inc = min(int(len(x)/10.0), 50)` is nonzero).  When the
sampled row count is below 10 and some non-target column is non-degenerate,
`range(0, len(x), 0)` raises `ValueError` — see `raise_on_small_input_cx`. -/
theorem no_raise_of_ten_rows (index : Nat) (S X : Mat) (perm : List Nat)
    (hrows : S.rows = X.rows) (hcols : S.cols = X.cols) (hidx : index < X.cols)
    (h10 : 10 ≤ X.rows)
    (hgood : X.rows ≤ 10000 ∨ perm.Perm (List.range X.rows)) :
    (approx_interactions index S X perm).isSome = true := by
  obtain ⟨_, _, _, _, _, happrox, _, _, _⟩ :=
    approx_run_spec index S X perm hrows hcols hidx h10 hgood
  rw [happrox]
  rfl

theorem no_raise_of_ten_rows_witness :
    elevenByTwo.rows = elevenByTwo.rows ∧ elevenByTwo.cols = elevenByTwo.cols ∧
    1 < elevenByTwo.cols ∧ 10 ≤ elevenByTwo.rows ∧
    (elevenByTwo.rows ≤ 10000 ∨ ([] : List Nat).Perm (List.range elevenByTwo.rows)) ∧
    (approx_interactions 1 elevenByTwo elevenByTwo []).isSome = true :=
  ⟨rfl, rfl, by decide, by decide, Or.inl (by decide),
    no_raise_of_ten_rows 1 elevenByTwo elevenByTwo [] rfl rfl (by decide)
      (by decide) (Or.inl (by decide))⟩

/-- C2 counterexample: `twoByTwo` is well-formed and constraint-satisfying
(equal 2 × 2 shapes, target 0 valid), its sampled row count 2 is below 10,
and the call raises (`ValueError` from `range(0, 2, 0)`) instead of
returning a result, refuting "never raises ... in particular it succeeds
also when the sampled row count is below 10". -/
theorem raise_on_small_input_cx :
    twoByTwo.rows = twoByTwo.rows ∧ twoByTwo.cols = twoByTwo.cols ∧
    0 < twoByTwo.cols ∧ twoByTwo.rows < 10 ∧
    approx_interactions 0 twoByTwo twoByTwo [] = none := by
  refine ⟨rfl, rfl, by decide, by decide, ?_⟩
  have hsetup : setup 0 twoByTwo twoByTwo [] = some cx2Ctx := rfl
  have hf0 : scoreFeature 0 cx2Ctx twoByTwo 0 = some 0 := rfl
  have hf1 : scoreFeature 0 cx2Ctx twoByTwo 1 = none := by
    have h1 : ¬((1:Nat) = 0 ∨
        ((valOther cx2Ctx twoByTwo 1).map fun a => |a|).sum < 1e-8) := by
      push_neg
      refine ⟨by decide, ?_⟩
      norm_num [valOther, applyPerm, cx2Ctx, twoByTwo]
    unfold scoreFeature
    rw [if_neg h1, if_pos (show cx2Ctx.inc = 0 from rfl)]
  have hmap : mapOption (scoreFeature 0 cx2Ctx twoByTwo)
      (List.range twoByTwo.cols) = none := by
    have hr : List.range twoByTwo.cols = [0, 1] := rfl
    rw [hr]
    simp only [mapOption, hf0, hf1]
  rw [approx_interactions_eq, hsetup]
  simp only [Option.some_bind]
  rw [hmap]
  rfl

/-- C3 (amended): the code performs no up-front shape validation; a
mismatch is caught only when it makes an access go out of bounds — as when
the attribution matrix has fewer rows than the feature matrix — and such a
failure does occur in `setup`, during the initial target-column
extraction, before any per-feature scoring.  Mismatches that keep every
access in bounds (more attribution rows, or extra columns beyond the
target index) are silently accepted — see `mismatch_accepted_cx`. -/
theorem short_attributions_fail_in_setup (index : Nat) (S X : Mat)
    (perm : List Nat) (hsmall : X.rows ≤ 10000) (hmiss : S.rows < X.rows) :
    setup index S X perm = none ∧ approx_interactions index S X perm = none := by
  have hfail : fancyCol S (sampleInds X perm) index = none := by
    unfold fancyCol
    rw [if_neg]
    rintro ⟨_, hr⟩
    have hmem : S.rows ∈ sampleInds X perm := by
      rw [sampleInds_small X perm hsmall]
      exact List.mem_range.mpr hmiss
    exact lt_irrefl _ (hr _ hmem)
  have hsetup : setup index S X perm = none := by
    unfold setup
    cases hx : fancyCol X (sampleInds X perm) index with
    | none => rfl
    | some x =>
      dsimp only
      rw [hfail]
  exact ⟨hsetup, by rw [approx_interactions_eq, hsetup]; rfl⟩

theorem short_attributions_fail_in_setup_witness :
    oneByTwoOnes.rows ≤ 10000 ∧ oneByTwoOnes.rows < twoByTwo.rows ∧
    setup 0 oneByTwoOnes twoByTwo [] = none ∧
    approx_interactions 0 oneByTwoOnes twoByTwo [] = none :=
  ⟨by decide, by decide,
    (short_attributions_fail_in_setup 0 oneByTwoOnes twoByTwo [] (by decide)
      (by decide)).1,
    (short_attributions_fail_in_setup 0 oneByTwoOnes twoByTwo [] (by decide)
      (by decide)).2⟩

/-- C3 counterexample: the attribution matrix has 12 rows while the
feature matrix has 10 — the row counts differ — yet `approx_interactions`
completes normally and returns a ranking: no precondition violation is
raised at all, refuting "for every pair ... whose row counts or column
counts differ, approx_interactions fails with a precondition violation". -/
theorem mismatch_accepted_cx :
    twelveByTwoZeros.rows ≠ tenByTwoZeros.rows ∧
    (approx_interactions 0 twelveByTwoZeros tenByTwoZeros []).isSome = true := by
  refine ⟨by decide, ?_⟩
  have hsetup : setup 0 twelveByTwoZeros tenByTwoZeros [] = some cx3Ctx := rfl
  have hf0 : scoreFeature 0 cx3Ctx tenByTwoZeros 0 = some 0 := rfl
  have hf1 : scoreFeature 0 cx3Ctx tenByTwoZeros 1 = some 0 := by
    apply scoreFeature_shortcircuit
    norm_num [valOther, applyPerm, cx3Ctx, tenByTwoZeros]
  have hmap : mapOption (scoreFeature 0 cx3Ctx tenByTwoZeros)
      (List.range tenByTwoZeros.cols) = some [0, 0] := by
    have hr : List.range tenByTwoZeros.cols = [0, 1] := rfl
    rw [hr]
    simp only [mapOption, hf0, hf1]
  rw [approx_interactions_eq, hsetup]
  simp only [Option.some_bind]
  rw [hmap]
  rfl

/-- C8: a window in which either series is constant — equivalently, by the
first conjunct, has zero standard deviation — contributes exactly nothing;
only a window where both series have positive standard deviation adds the
absolute Pearson correlation of the two windows.  The contribution is a
total function, so no error can arise from a degenerate window. -/
theorem constant_window_contributes_nothing (shap_ref val_other : List ℚ)
    (s inc : Nat) :
    (npstd (winSlice val_other s inc) = 0 ↔
      ∀ a ∈ winSlice val_other s inc, ∀ b ∈ winSlice val_other s inc, a = b) ∧
    ((∀ a ∈ winSlice val_other s inc, ∀ b ∈ winSlice val_other s inc, a = b) ∨
      (∀ a ∈ winSlice shap_ref s inc, ∀ b ∈ winSlice shap_ref s inc, a = b) →
      windowContribution shap_ref val_other s inc = 0) ∧
    (0 < npstd (winSlice val_other s inc) → 0 < npstd (winSlice shap_ref s inc) →
      windowContribution shap_ref val_other s inc =
        absCorrcoef (winSlice shap_ref s inc) (winSlice val_other s inc)) := by
  refine ⟨npstd_eq_zero_iff _, windowContribution_eq_zero_of_const _ _ _ _, ?_⟩
  intro h1 h2
  unfold windowContribution
  rw [if_pos ⟨h1, h2⟩]

theorem constant_window_contributes_nothing_witness :
    (∀ a ∈ winSlice [(7:ℚ), 7, 7] 0 3, ∀ b ∈ winSlice [(7:ℚ), 7, 7] 0 3, a = b) ∧
      windowContribution [1, 2, 3] [(7:ℚ), 7, 7] 0 3 = 0 := by
  have hc : ∀ a ∈ winSlice [(7:ℚ), 7, 7] 0 3,
      ∀ b ∈ winSlice [(7:ℚ), 7, 7] 0 3, a = b := by
    intro a ha b hb
    simp [winSlice] at ha hb
    rw [ha, hb]
  exact ⟨hc,
    (constant_window_contributes_nothing [1, 2, 3] [(7:ℚ), 7, 7] 0 3).2.1 (Or.inl hc)⟩

lemma lt_ceilDiv_iff (inc k len : Nat) (hinc : 0 < inc) :
    k < (len + inc - 1) / inc ↔ k * inc < len := by
  rw [Nat.lt_iff_add_one_le, Nat.le_div_iff_mul_le hinc, Nat.succ_mul]
  generalize k * inc = t
  omega

lemma mem_windowStarts (len inc s : Nat) (hinc : 0 < inc) :
    s ∈ windowStarts len inc ↔ inc ∣ s ∧ s < len := by
  unfold windowStarts
  rw [List.mem_map]
  constructor
  · rintro ⟨k, hk, rfl⟩
    rw [List.mem_range] at hk
    exact ⟨⟨k, mul_comm k inc⟩, (lt_ceilDiv_iff inc k len hinc).mp hk⟩
  · rintro ⟨⟨k, rfl⟩, hlt⟩
    refine ⟨k, ?_, mul_comm k inc⟩
    rw [List.mem_range, lt_ceilDiv_iff inc k len hinc, mul_comm]
    exact hlt

lemma window_cover_unique (len inc p : Nat) (hinc : 0 < inc) (hp : p < len) :
    (windowStarts len inc).countP (fun s => decide (s ≤ p ∧ p < s + inc)) = 1 := by
  unfold windowStarts
  rw [List.countP_map]
  have hcong : ∀ k ∈ List.range ((len + inc - 1) / inc),
      (((fun s => decide (s ≤ p ∧ p < s + inc)) ∘ (· * inc)) k = true ↔
        (k == p / inc) = true) := by
    intro k _
    simp only [Function.comp_apply, decide_eq_true_eq, beq_iff_eq]
    constructor
    · rintro ⟨h1, h2⟩
      exact (Nat.div_eq_of_lt_le h1 (by rw [Nat.succ_mul]; exact h2)).symm
    · rintro rfl
      have hd := Nat.div_add_mod p inc
      have hm := Nat.mod_lt p hinc
      have hc : (p / inc) * inc = inc * (p / inc) := mul_comm _ _
      omega
  rw [List.countP_congr hcong]
  have hmem : p / inc ∈ List.range ((len + inc - 1) / inc) := by
    rw [List.mem_range, lt_ceilDiv_iff inc _ len hinc]
    have hd := Nat.div_add_mod p inc
    have hm := Nat.mod_lt p hinc
    have hc : (p / inc) * inc = inc * (p / inc) := mul_comm _ _
    omega
  have hcount := List.count_eq_one_of_mem (List.nodup_range _) hmem
  simpa [List.count] using hcount

/-- C10: with a positive bin width, (i) the window starts are exactly the
multiples of `inc` below the sample length, (ii) every sample position
lies in exactly one window, (iii) each window is the numpy slice
`[s : s+inc]`, of length `min inc (len - s)` — the final window is
truncated by slicing when `inc` does not divide `len`, never discarded and
never empty — and (iv) a window of width 1 contributes nothing to the
score, because a single value has zero standard deviation. -/
theorem window_partition (len inc : Nat) (hinc : 0 < inc) :
    (∀ s, s ∈ windowStarts len inc ↔ inc ∣ s ∧ s < len) ∧
    (∀ p, p < len →
      (windowStarts len inc).countP (fun s => decide (s ≤ p ∧ p < s + inc)) = 1) ∧
    (∀ w : List ℚ, w.length = len → ∀ s ∈ windowStarts len inc,
      (winSlice w s inc).length = min inc (len - s) ∧ winSlice w s inc ≠ []) ∧
    (∀ sr vo : List ℚ, ∀ t : Nat, ((winSlice vo t inc).length = 1 ∨
      (winSlice sr t inc).length = 1) → windowContribution sr vo t inc = 0) := by
  refine ⟨fun s => mem_windowStarts len inc s hinc,
    fun p hp => window_cover_unique len inc p hinc hp, ?_, ?_⟩
  · intro w hw s hs
    have hslt : s < len := ((mem_windowStarts len inc s hinc).mp hs).2
    constructor
    · rw [winSlice_length, hw]
    · rw [← List.length_pos, winSlice_length, hw]
      omega
  · intro sr vo t h
    apply windowContribution_eq_zero_of_const
    rcases h with h1 | h1
    · left
      obtain ⟨a, ha⟩ := List.length_eq_one.mp h1
      rw [ha]
      intro x hx y hy
      rw [List.mem_singleton.mp hx, List.mem_singleton.mp hy]
    · right
      obtain ⟨a, ha⟩ := List.length_eq_one.mp h1
      rw [ha]
      intro x hx y hy
      rw [List.mem_singleton.mp hx, List.mem_singleton.mp hy]

theorem window_partition_witness :
    0 < 2 ∧ ((2 ∈ windowStarts 5 2) ↔ (2 ∣ 2 ∧ 2 < 5)) ∧
      (windowStarts 5 2).countP (fun s => decide (s ≤ 4 ∧ 4 < s + 2)) = 1 :=
  ⟨by decide, (window_partition 5 2 (by decide)).1 2,
    (window_partition 5 2 (by decide)).2.1 4 (by decide)⟩

/-- C4 (code bug): of the three auto-selection sites, only
`dependence_plot` invokes `approx_interactions(ind, shap_values, features)`
and uses its top-ranked index (first conjunct).  `interaction_plot` passes
the arguments in the wrong positional order — the integer index lands in
the matrix parameter, so the first executed statement `X.shape[0]` raises
`AttributeError` on every call (second conjunct) — and `joint_plot` calls
the undefined module-level name `interactions`, raising `NameError` on
every call (third conjunct). -/
theorem auto_selection_call_sites :
    (∀ (ind : Nat) (S X : Mat) (perm : List Nat),
      dependence_plot_auto ind S X perm =
        (approx_interactions ind S X perm).map fun l => l.headI) ∧
    (∀ (ind : Nat) (X S : Mat) (perm : List Nat),
      interaction_plot_auto ind X S perm = none) ∧
    (∀ (ind : Nat) (X S : Mat) (oai : Nat) (perm : List Nat),
      joint_plot_auto ind X S oai perm = none) :=
  ⟨fun _ _ _ _ => rfl, fun _ _ _ _ => rfl, fun _ _ _ _ _ => rfl⟩

/-! ### A demonstration run with a strictly positive score -/

lemma absCorrcoef_pair (c d a b : ℚ) (hcd : c ≠ d) (hab : a ≠ b) :
    absCorrcoef [c, d] [a, b] = 1 := by
  have hc : ccov [c, d] [a, b] = (c - d) * (a - b) / 4 * 2 := by
    simp [ccov, mean, Finset.sum_range_succ]
    ring
  have hv1 : svar [c, d] = (c - d) ^ 2 / 2 := by
    simp [svar, mean, Finset.sum_range_succ]
    ring
  have hv2 : svar [a, b] = (a - b) ^ 2 / 2 := by
    simp [svar, mean, Finset.sum_range_succ]
    ring
  unfold absCorrcoef
  rw [hc, hv1, hv2]
  have hprod : ((c - d) ^ 2 / 2) * ((a - b) ^ 2 / 2) =
      ((c - d) * (a - b) / 4 * 2) ^ 2 := by ring
  rw [hprod]
  have hqne : ((c - d) * (a - b) / 4 * 2 : ℚ) ≠ 0 := by
    apply mul_ne_zero
    · exact div_ne_zero (mul_ne_zero (sub_ne_zero.mpr hcd) (sub_ne_zero.mpr hab))
        (by norm_num)
    · norm_num
  rw [show (((((c - d) * (a - b) / 4 * 2) ^ 2 : ℚ)) : ℝ) =
      ((((c - d) * (a - b) / 4 * 2 : ℚ)) : ℝ) ^ 2 from by push_cast; ring]
  rw [Real.sqrt_sq_eq_abs]
  rw [div_self (abs_ne_zero.mpr (by exact_mod_cast hqne))]

lemma npstd_pair_pos (a b : ℚ) (hab : a ≠ b) : 0 < npstd [a, b] := by
  rw [npstd_pos_iff]
  have hv : svar [a, b] = (a - b) ^ 2 / 2 := by
    simp [svar, mean, Finset.sum_range_succ]
    ring
  rw [hv]
  have h2 : (a - b) ^ 2 ≠ 0 := pow_ne_zero 2 (sub_ne_zero.mpr hab)
  exact div_pos (lt_of_le_of_ne (sq_nonneg _) (Ne.symm h2)) two_pos

lemma winSlice_two (w : List ℚ) (s : Nat) (h : s + 1 < w.length) :
    winSlice w s 2 = [w.getD s 0, w.getD (s + 1) 0] := by
  have hlen : (winSlice w s 2).length = 2 := by
    rw [winSlice_length]
    omega
  apply List.ext_getElem
  · rw [hlen]
    rfl
  · intro i h1 h2
    rw [hlen] at h1
    unfold winSlice
    rw [List.getElem_take, List.getElem_drop]
    interval_cases i
    · simp [List.getElem?_eq_getElem (show s < w.length by omega)]
    · simp [List.getElem?_eq_getElem (show s + 1 < w.length from h)]

lemma demoQ_getD (k : Nat) (h : k < 20) : demoQ.getD k 0 = (k : ℚ) := by
  unfold demoQ
  rw [List.getD_eq_getElem _ _ (by simpa using h), List.getElem_map,
    List.getElem_range]

lemma demo_window (s : Nat) (h : s + 1 < 20) :
    windowContribution demoQ demoQ s 2 = 1 := by
  have hlen : demoQ.length = 20 := by simp [demoQ]
  have hsl : winSlice demoQ s 2 = [demoQ.getD s 0, demoQ.getD (s + 1) 0] :=
    winSlice_two demoQ s (by rw [hlen]; exact h)
  have hne : demoQ.getD s 0 ≠ demoQ.getD (s + 1) 0 := by
    rw [demoQ_getD s (by omega), demoQ_getD (s + 1) h]
    intro hcast
    have hss : s = s + 1 := by exact_mod_cast hcast
    omega
  unfold windowContribution
  rw [hsl, if_pos ⟨npstd_pair_pos _ _ hne, npstd_pair_pos _ _ hne⟩]
  exact absCorrcoef_pair _ _ _ _ hne hne

lemma demo_setup : setup 0 demoS demoX [] = some demoCtx := rfl

lemma demo_score0 : scoreFeature 0 demoCtx demoX 0 = some 0 := rfl

lemma demo_valOther : valOther demoCtx demoX 1 = demoQ := rfl

lemma demo_score1 : scoreFeature 0 demoCtx demoX 1 = some 10 := by
  have h1mem : (1 : ℚ) ∈ demoQ := by
    unfold demoQ
    refine List.mem_map.mpr ⟨1, by simp, by norm_num⟩
  have habs : (1 : ℚ) ∈ demoQ.map fun a => |a| :=
    List.mem_map.mpr ⟨1, h1mem, by norm_num⟩
  have hsum : (1 : ℚ) ≤ (demoQ.map fun a => |a|).sum := by
    apply List.single_le_sum ?_ _ habs
    intro x hx
    obtain ⟨a, _, rfl⟩ := List.mem_map.mp hx
    exact abs_nonneg a
  have hnd : ¬((1 : Nat) = 0 ∨
      ((valOther demoCtx demoX 1).map fun a => |a|).sum < 1e-8) := by
    push_neg
    refine ⟨by decide, ?_⟩
    rw [demo_valOther]
    exact le_trans (show (1e-8 : ℚ) ≤ 1 by norm_num) hsum
  unfold scoreFeature
  rw [if_neg hnd, if_neg (show ¬ demoCtx.inc = 0 by decide), demo_valOther]
  have hxl : demoCtx.x.length = 20 := by simp [demoCtx, demoQ]
  rw [show demoCtx.shap_ref = demoQ from rfl, show demoCtx.inc = 2 from rfl, hxl]
  rw [show windowStarts 20 2 = [0, 2, 4, 6, 8, 10, 12, 14, 16, 18] from rfl]
  have hone : ∀ s ∈ [0, 2, 4, 6, 8, 10, 12, 14, 16, 18],
      windowContribution demoQ demoQ s 2 = (1 : ℝ) := by
    intro s hs
    fin_cases hs <;> exact demo_window _ (by norm_num)
  rw [List.map_congr_left hone]
  norm_num

lemma demo_approx : approx_interactions 0 demoS demoX [] = some [1, 0] := by
  have hmap : mapOption (scoreFeature 0 demoCtx demoX) (List.range demoX.cols) =
      some [0, 10] := by
    rw [show List.range demoX.cols = [0, 1] from rfl]
    simp only [mapOption, demo_score0, demo_score1]
  rw [approx_interactions_eq, demo_setup]
  simp only [Option.some_bind]
  rw [hmap, Option.map_some']
  congr 1
  unfold argsortNegAbs
  rw [show ([(0:ℝ), 10] : List ℝ).length = 2 from rfl,
    show List.range 2 = [0, 1] from rfl]
  have hkey : ¬((negAbsKeys [(0:ℝ), 10]).getD 0 0 ≤
      (negAbsKeys [(0:ℝ), 10]).getD 1 0) := by
    norm_num [negAbsKeys]
  simp only [List.insertionSort, List.orderedInsert]
  rw [if_neg hkey]

/-- C6: the target feature's own interaction score is exactly 0 (first
conjunct — the `i == index` branch of line 158 never consults a window),
and in any ranking the call returns, every feature with a strictly
positive score is placed strictly before the target's own index. -/
theorem target_scores_zero_and_ranks_behind (index : Nat) (S X : Mat)
    (perm : List Nat) (ctx : Ctx)
    (hsetup : setup index S X perm = some ctx) (hidx : index < X.cols)
    (r : List Nat) (happrox : approx_interactions index S X perm = some r)
    (j : Nat) (v : ℝ) (hj : j < X.cols)
    (hscore : scoreFeature index ctx X j = some v) (hv : 0 < v) :
    scoreFeature index ctx X index = some 0 ∧ r.indexOf j < r.indexOf index := by
  refine ⟨scoreFeature_target index ctx X, ?_⟩
  rw [approx_interactions_eq, hsetup] at happrox
  simp only [Option.some_bind] at happrox
  cases hm : mapOption (scoreFeature index ctx X) (List.range X.cols) with
  | none =>
    rw [hm] at happrox
    exact Option.noConfusion happrox
  | some scores =>
    rw [hm, Option.map_some'] at happrox
    obtain rfl : argsortNegAbs scores = r := Option.some.inj happrox
    obtain ⟨hslen0, hsget⟩ := mapOption_spec _ _ _ hm
    have hslen : scores.length = X.cols := by simpa using hslen0
    have hgj : scoreFeature index ctx X j = some (scores.getD j 0) := by
      have h := hsget j (by simpa using hj)
      rwa [range_getD _ _ hj] at h
    have hvj : scores.getD j 0 = v := Option.some.inj (hgj.symm.trans hscore)
    have hgi : scoreFeature index ctx X index = some (scores.getD index 0) := by
      have h := hsget index (by simpa using hidx)
      rwa [range_getD _ _ hidx] at h
    have hvi : scores.getD index 0 = 0 :=
      Option.some.inj (hgi.symm.trans (scoreFeature_target index ctx X))
    have hperm := argsortNegAbs_perm scores
    have hmemj : j ∈ argsortNegAbs scores := by
      rw [hperm.mem_iff, List.mem_range, hslen]
      exact hj
    have hmemi : index ∈ argsortNegAbs scores := by
      rw [hperm.mem_iff, List.mem_range, hslen]
      exact hidx
    have hne : j ≠ index := by
      intro he
      rw [he, hvi] at hvj
      rw [← hvj] at hv
      exact lt_irrefl 0 hv
    have hjlen : (argsortNegAbs scores).indexOf j < (argsortNegAbs scores).length :=
      List.indexOf_lt_length.mpr hmemj
    have hilen : (argsortNegAbs scores).indexOf index <
        (argsortNegAbs scores).length := List.indexOf_lt_length.mpr hmemi
    by_contra hcon
    push_neg at hcon
    rcases lt_or_eq_of_le hcon with hlt | heq
    · have hsort := argsortNegAbs_sorted scores
      rw [List.Sorted, List.pairwise_iff_getElem] at hsort
      have hrel := hsort _ _ hilen hjlen hlt
      rw [List.getElem_indexOf hilen, List.getElem_indexOf hjlen] at hrel
      rw [negAbsKeys_getD _ _ (by rw [hslen]; exact hidx),
        negAbsKeys_getD _ _ (by rw [hslen]; exact hj), neg_le_neg_iff] at hrel
      rw [hvj, hvi] at hrel
      simp only [abs_zero] at hrel
      have hle : v ≤ 0 := le_trans (le_abs_self v) hrel
      exact absurd hv (not_lt.mpr hle)
    · have hgeq : (argsortNegAbs scores)[(argsortNegAbs scores).indexOf index] =
          (argsortNegAbs scores)[(argsortNegAbs scores).indexOf j] := by
        congr 1
      rw [List.getElem_indexOf hilen, List.getElem_indexOf hjlen] at hgeq
      exact hne hgeq.symm

theorem target_scores_zero_and_ranks_behind_witness :
    setup 0 demoS demoX [] = some demoCtx ∧ 0 < demoX.cols ∧
    approx_interactions 0 demoS demoX [] = some [1, 0] ∧ 1 < demoX.cols ∧
    scoreFeature 0 demoCtx demoX 1 = some 10 ∧ (0 : ℝ) < 10 ∧
    (scoreFeature 0 demoCtx demoX 0 = some 0 ∧
      ([1, 0] : List Nat).indexOf 1 < ([1, 0] : List Nat).indexOf 0) :=
  ⟨demo_setup, by decide, demo_approx, by decide, demo_score1, by norm_num,
    target_scores_zero_and_ranks_behind 0 demoS demoX [] demoCtx demo_setup
      (by decide) [1, 0] demo_approx 1 10 (by decide) demo_score1 (by norm_num)⟩

theorem score_nonneg_le_scored_windows_witness :
    demoCtx.shap_ref.length = demoCtx.srt.length ∧
    scoreFeature 0 demoCtx demoX 1 = some 10 ∧
    (0 ≤ (10 : ℝ) ∧ (10 : ℝ) ≤ (scoredWindowCount demoCtx.shap_ref
      (valOther demoCtx demoX 1) demoCtx.x.length demoCtx.inc : ℝ)) :=
  ⟨by simp [demoCtx, demoQ], demo_score1,
    score_nonneg_le_scored_windows 0 demoCtx demoX 1 10
      (by simp [demoCtx, demoQ]) demo_score1⟩
